import Mathlib

/-!
Verification development for the `omap` ordered-map package.

The definitions below are a shallow embedding of the Go sources
`src/omap.go`, `src/omap_indexes.go` and `src/omap_record.go`:

* a `container/list` list is modelled as a `List Nat` of element
  identifiers; every Go `list.Element` allocation gets a fresh identifier,
  and the element's `Value any` field lives in an arena
  (`OmapS.arena : List (Nat × Val K D)`).  An element "belongs" to the
  list that contains its identifier, which mirrors the `e.list == l`
  ownership guards of `container/list` (`Remove`, `MoveBefore`, ... are
  silent no-ops on foreign elements).
* Go map iteration order over the index lists is not specified; the model
  iterates the association list in order.  The per-index sort passes are
  dispatched as goroutines in the source but each touches only its own
  list, so they are modelled sequentially (their commutativity is proved
  below for claim C9).
* the outer loop of `sortFunc` restarts from the front after a move; the
  model runs it on fuel and returns `none` when the fuel is exhausted, so
  a `some` result certifies that the Go loop actually finished.
* Go panics (nil-pointer dereferences) are modelled by an explicit
  `crash` outcome.
-/

set_option linter.unusedSectionVars false

namespace OmapModel

/-- `Value any` of a list element: either a `recordValue{Key, Data}`
(src/omap_record.go 16-19) or a bare data value, which is what
`el.Value = data` in `Set` (src/omap.go 172) stores for an existing key. -/
inductive Val (K D : Type) where
  | rv (key : K) (data : D)
  | raw (data : D)
deriving DecidableEq, Repr

/-- `Record.Key()` (src/omap_record.go 22-27): the type assertion on
`recordValue` fails for a bare value and leaves the zero value of `K`. -/
def valKey {K D : Type} [Inhabited K] : Val K D → K
  | .rv k _ => k
  | .raw _ => default

/-- `Record.Data()` (src/omap_record.go 30-35): the type assertion on
`recordValue` fails for a bare value and leaves the zero value of `D`. -/
def valData {K D : Type} [Inhabited D] : Val K D → D
  | .rv _ d => d
  | .raw _ => default

/-- Association-list lookup (a Go map read `m[k]`). -/
def alGet {κ β : Type} [DecidableEq κ] : List (κ × β) → κ → Option β
  | [], _ => none
  | p :: t, k => if p.1 = k then some p.2 else alGet t k

/-- Overwrite the value stored at key `k` (no-op when `k` is absent). -/
def alUpd {κ β : Type} [DecidableEq κ] (l : List (κ × β)) (k : κ) (v : β) :
    List (κ × β) :=
  l.map fun p => if p.1 = k then (k, v) else p

/-- A Go map write `m[k] = v`: update in place or append. -/
def alSet {κ β : Type} [DecidableEq κ] (l : List (κ × β)) (k : κ) (v : β) :
    List (κ × β) :=
  if (alGet l k).isSome then alUpd l k v else l ++ [(k, v)]

/-- A Go map `delete(m, k)`. -/
def alDel {κ β : Type} [DecidableEq κ] : List (κ × β) → κ → List (κ × β)
  | [], _ => []
  | p :: t, k => if p.1 = k then alDel t k else p :: alDel t k

/-- Remove the first occurrence of `e` (the unique one: identifiers in a
list are distinct by construction). -/
def delFirst {α : Type} [DecidableEq α] (e : α) : List α → List α
  | [] => []
  | x :: xs => if x = e then xs else x :: delFirst e xs

/-- Insert `x` immediately before the first occurrence of `mk`. -/
def insBef {α : Type} [DecidableEq α] (mk x : α) : List α → List α
  | [] => []
  | y :: ys => if y = mk then x :: y :: ys else y :: insBef mk x ys

/-- Insert `x` immediately after the first occurrence of `mk`. -/
def insAft {α : Type} [DecidableEq α] (mk x : α) : List α → List α
  | [] => []
  | y :: ys => if y = mk then y :: x :: ys else y :: insAft mk x ys

/-- The part of the list after element `e` (its successors, front to back). -/
def succsOf {α : Type} [DecidableEq α] (e : α) : List α → List α
  | [] => []
  | x :: xs => if x = e then xs else succsOf e xs

/-- `Element.Next()` within one list: the element after `e`, if any. -/
def succIn {α : Type} [DecidableEq α] (e : α) (l : List α) : Option α :=
  (succsOf e l).head?

/-- `(*List).Remove` (container/list): removes `e` only when the list owns
it, otherwise a silent no-op. -/
def goRemove {α : Type} [DecidableEq α] (l : List α) (e : α) : List α :=
  if e ∈ l then delFirst e l else l

/-- `(*List).MoveToFront`: no-op when the list does not own `e`. -/
def goMoveToFront {α : Type} [DecidableEq α] (l : List α) (e : α) : List α :=
  if e ∈ l then e :: delFirst e l else l

/-- `(*List).MoveToBack`: no-op when the list does not own `e`. -/
def goMoveToBack {α : Type} [DecidableEq α] (l : List α) (e : α) : List α :=
  if e ∈ l then delFirst e l ++ [e] else l

/-- `(*List).MoveBefore`: no-op unless the list owns both `e` and `mk`
and they differ. -/
def goMoveBefore {α : Type} [DecidableEq α] (l : List α) (e mk : α) : List α :=
  if e = mk then l
  else if e ∈ l ∧ mk ∈ l then insBef mk e (delFirst e l) else l

/-- `(*List).MoveAfter`: no-op unless the list owns both `e` and `mk`
and they differ. -/
def goMoveAfter {α : Type} [DecidableEq α] (l : List α) (e mk : α) : List α :=
  if e = mk then l
  else if e ∈ l ∧ mk ∈ l then insAft mk e (delFirst e l) else l

/-- The relocation a `sortRecord` call performs on the node it fixes up. -/
inductive MoveAct (α : Type) where
  | stay
  | before (t : α)
  | toBack
deriving DecidableEq, Repr

/-- Apply a relocation of element `e` to a list, with the `container/list`
ownership guards. -/
def applyAct {α : Type} [DecidableEq α] (l : List α) (e : α) :
    MoveAct α → List α
  | .stay => l
  | .before t => goMoveBefore l e t
  | .toBack => goMoveToBack l e

/-- `checkPair`'s membership test (src/omap.go 631-646): a pair of record
keys counts as seen in either orientation. -/
def pairMem {κ : Type} [DecidableEq κ] (c : List (κ × κ)) (k1 k2 : κ) : Bool :=
  decide ((k1, k2) ∈ c) || decide ((k2, k1) ∈ c)

/-- `sortRecord` of src/omap.go 479-533.  The walk starts at `elToMove`
with successor list `ss` and threads the `sorted` pair cache: a pair
already in the cache is skipped (`continue`); otherwise the pair is added,
then a comparison `> 0` keeps walking with `move` set, a comparison
`<= 0` breaks (relocating before the successor when `move` is set), and
exhausting the list relocates to the back when `move` is set. -/
def sortRecOmap {α κ : Type} [DecidableEq κ] (f : α → α → Int) (key : α → κ)
    (el : α) : List α → List (κ × κ) → Bool → MoveAct α × List (κ × κ)
  | [], c, moved => (if moved then .toBack else .stay, c)
  | s :: rest, c, moved =>
    if pairMem c (key el) (key s) then sortRecOmap f key el rest c moved
    else
      let c' := (key el, key s) :: c
      if f el s > 0 then sortRecOmap f key el rest c' true
      else if moved then (.before s, c') else (.stay, c')

/-- `sortRecord` of src/omap_indexes.go 204-245.  Unlike the omap.go
variant there is no pair cache, and a `<= 0` comparison returns only when
`move` is already set; otherwise the walk continues to the next
successor. -/
def sortRecIdx {α : Type} (f : α → α → Int) (el : α) :
    List α → Bool → MoveAct α
  | [], moved => if moved then .toBack else .stay
  | s :: rest, moved =>
    if f el s > 0 then sortRecIdx f el rest true
    else if moved then .before s else sortRecIdx f el rest false

/-- One `sortRecord` call of src/omap.go applied to the list it sorts:
`el` with successors `ss`, empty pair cache. -/
def sortRecOmapApp {α κ : Type} [DecidableEq α] [DecidableEq κ]
    (f : α → α → Int) (key : α → κ) (el : α) (ss : List α) : List α :=
  applyAct (el :: ss) el (sortRecOmap f key el ss [] false).1

/-- One `sortRecord` call of src/omap_indexes.go applied to the list it
sorts: `el` with successors `ss`. -/
def sortRecIdxApp {α : Type} [DecidableEq α] (f : α → α → Int) (el : α)
    (ss : List α) : List α :=
  applyAct (el :: ss) el (sortRecIdx f el ss false)

/-- The loop of `sortFunc` (src/omap.go 452-476): iterate over the list;
`next` is taken before the `sortRecord` call and reset to the front when
the call reports a move.  Runs on fuel; `none` means the fuel ran out. -/
def sortFuncLoop {α κ : Type} [DecidableEq α] [DecidableEq κ]
    (f : α → α → Int) (key : α → κ) :
    Nat → List α → Option α → List (κ × κ) → Option (List α)
  | 0, _, _, _ => none
  | _ + 1, l, none, _ => some l
  | fuel + 1, l, some el, c =>
    let nxt := succIn el l
    match sortRecOmap f key el (succsOf el l) c false with
    | (.stay, c') => sortFuncLoop f key fuel l nxt c'
    | (act, c') =>
      let l' := applyAct l el act
      sortFuncLoop f key fuel l' l'.head? c'

/-- `sortFunc` of src/omap.go 452-476 on a plain element list: fresh
`sorted` cache, start at the front. -/
def sortFuncL {α κ : Type} [DecidableEq α] [DecidableEq κ]
    (f : α → α → Int) (key : α → κ) (fuel : Nat) (l : List α) :
    Option (List α) :=
  sortFuncLoop f key fuel l l.head? []

/-- `CompareByKey` (src/omap.go 101-115) at concrete ordered keys. -/
def compareByKey {K : Type} [LT K] [∀ a b : K, Decidable (a < b)]
    (k1 k2 : K) : Int :=
  if k2 < k1 then 1 else if k1 < k2 then -1 else 0

/-- Adjacent-pair sortedness: the invariant `c(a, b) <= 0` for all
adjacent pairs of the list (spec §3 invariant 2). -/
def sortedAdj {α : Type} (f : α → α → Int) : List α → Bool
  | [] => true
  | [_] => true
  | a :: b :: t => decide (f a b ≤ 0) && sortedAdj f (b :: t)

/-- Errors of src/omap.go 21-26 that the embedded operations produce. -/
inductive GErr where
  | keyAllreadySet
  | recordNotFound
deriving DecidableEq, Repr

/-- Outcome of a mutating call: a returned error value plus the new state,
a Go panic (`crash`), or fuel exhaustion of the sort loop (`spin`). -/
inductive Out (σ : Type) where
  | ok (err : Option GErr) (s : σ)
  | crash
  | spin
deriving DecidableEq, Repr

/-- Outcome of a read-only call: a value, or a Go panic. -/
inductive Res (α : Type) where
  | ok (a : α)
  | crash
deriving DecidableEq, Repr

/-- The `Omap` state (src/omap.go 32-50): the key table `m` (a record is
`Option Nat`, `none` being a nil `*Record`), the index lists `lm`
(index key `0` is the default insertion list), and the element arena
holding each `list.Element`'s `Value`.  The comparator map `sm` is passed
to the operations as a function parameter. -/
structure OmapS (K D : Type) where
  m : List (K × Option Nat)
  lm : List (Nat × List Nat)
  arena : List (Nat × Val K D)
  nextId : Nat
deriving DecidableEq, Repr

variable {K D : Type} [DecidableEq K] [DecidableEq D] [Inhabited K]
  [Inhabited D]

/-- `New` (src/omap.go 66-94) with secondary index keys `sidx`
(all non-zero): empty table, one empty list per index. -/
def newOmap (sidx : List Nat) : OmapS K D :=
  ⟨[], (0, []) :: sidx.map (fun k => (k, [])), [], 0⟩

/-- The comparator map `sm`: for each secondary index key, a three-way
comparison on the two records' values. -/
def Cmp (K D : Type) : Type :=
  Nat → Val K D → Val K D → Int

/-- The `Value` of element `e` (elements in lists always have an arena
entry; the fallback is never hit on reachable states). -/
def arenaVal (s : OmapS K D) (e : Nat) : Val K D :=
  (alGet s.arena e).getD (.raw default)

/-- Comparator of index `k` lifted to element identifiers, as
`sortRecord` invokes it on `elementToRecord` values. -/
def liftF (cmp : Cmp K D) (k : Nat) (s : OmapS K D) : Nat → Nat → Int :=
  fun a b => cmp k (arenaVal s a) (arenaVal s b)

/-- `Record.Key()` lifted to element identifiers (used by `checkPair`). -/
def liftKey (s : OmapS K D) : Nat → K :=
  fun a => valKey (arenaVal s a)

/-- `o.sortFunc(k, o.sm[k])` acting on the state (src/omap.go 452-476):
look the list up (silent return when the index key is unknown), sort it,
store it back.  `none` is fuel exhaustion. -/
def sortIdxOp (cmp : Cmp K D) (fuel : Nat) (s : OmapS K D) (k : Nat) :
    Option (OmapS K D) :=
  match alGet s.lm k with
  | none => some s
  | some l =>
    match sortFuncL (liftF cmp k s) (liftKey s) fuel l with
    | none => none
    | some l' => some { s with lm := alUpd s.lm k l' }

/-- Run the per-index sort passes sequentially over the given index
keys. -/
def sortSeq (cmp : Cmp K D) (fuel : Nat) :
    List Nat → OmapS K D → Option (OmapS K D)
  | [], s => some s
  | k :: t, s =>
    match sortIdxOp cmp fuel s k with
    | none => none
    | some s' => sortSeq cmp fuel t s'

/-- The secondary index keys of the state (the range of `o.lm` minus the
default key `0`). -/
def secKeys (s : OmapS K D) : List Nat :=
  (s.lm.map Prod.fst).filter (fun k => k != 0)

/-- `sortLists` (src/omap.go 592-608): sort every secondary index,
skipping the default list.  The goroutine fan-out/fan-in is modelled
sequentially (commutativity is proved for claim C9). -/
def sortListsOp (cmp : Cmp K D) (fuel : Nat) (s : OmapS K D) :
    Option (OmapS K D) :=
  sortSeq cmp fuel (secKeys s) s

/-- Insertion directions (src/omap.go 536-541). -/
inductive Dir where
  | back
  | front
  | bef
  | aft
deriving DecidableEq, Repr

/-- The secondary-list half of `insertRecord` (src/omap.go 568-586):
for each secondary index, push a fresh element holding a copy of `v` to
the front of the list, then sort that list. -/
def insSec (cmp : Cmp K D) (fuel : Nat) (v : Val K D) :
    List Nat → OmapS K D → Option (OmapS K D)
  | [], s => some s
  | k :: t, s =>
    let e := s.nextId
    let lk := (alGet s.lm k).getD []
    let s1 : OmapS K D :=
      { s with lm := alUpd s.lm k (e :: lk), arena := (e, v) :: s.arena,
               nextId := e + 1 }
    match sortIdxOp cmp fuel s1 k with
    | none => none
    | some s2 => insSec cmp fuel v t s2

/-- `insertRecord` (src/omap.go 550-589): create the `recordValue`, add an
element to the default list according to `direction` (`InsertBefore` /
`InsertAfter` with a nil mark dereference nil and panic; with a foreign
mark, `container/list` returns nil and no element is created), then add a
copy to every secondary list and sort those lists.  Returns the record of
the default-list element. -/
def insertRecordOp (cmp : Cmp K D) (fuel : Nat) (s : OmapS K D) (key : K)
    (d : D) (dir : Dir) (mark : Option Nat) :
    Out (Option Nat × OmapS K D) :=
  let v : Val K D := .rv key d
  let lm0 := (alGet s.lm 0).getD []
  let step : Res (Option Nat × OmapS K D) :=
    match dir with
    | .back =>
      let e := s.nextId
      .ok (some e, { s with lm := alUpd s.lm 0 (lm0 ++ [e]),
                            arena := (e, v) :: s.arena, nextId := e + 1 })
    | .front =>
      let e := s.nextId
      .ok (some e, { s with lm := alUpd s.lm 0 (e :: lm0),
                            arena := (e, v) :: s.arena, nextId := e + 1 })
    | .bef =>
      match mark with
      | none => .crash
      | some mk =>
        if mk ∈ lm0 then
          let e := s.nextId
          .ok (some e, { s with lm := alUpd s.lm 0 (insBef mk e lm0),
                                arena := (e, v) :: s.arena, nextId := e + 1 })
        else .ok (none, s)
    | .aft =>
      match mark with
      | none => .crash
      | some mk =>
        if mk ∈ lm0 then
          let e := s.nextId
          .ok (some e, { s with lm := alUpd s.lm 0 (insAft mk e lm0),
                                arena := (e, v) :: s.arena, nextId := e + 1 })
        else .ok (none, s)
  match step with
  | .crash => .crash
  | .ok (rec, s1) =>
    match insSec cmp fuel v (secKeys s1) s1 with
    | none => .spin
    | some s2 => .ok none (rec, s2)

/-- `Set` (src/omap.go 166-181): for an existing key assign the bare data
to the element's `Value` (`el.Value = data`) and resort the secondary
lists; for a new key insert at the back.  A nil record stored under the
key makes `el.Value = data` dereference nil. -/
def setOp (cmp : Cmp K D) (fuel : Nat) (s : OmapS K D) (key : K) (d : D) :
    Out (OmapS K D) :=
  match alGet s.m key with
  | some none => .crash
  | some (some e) =>
    let s1 : OmapS K D := { s with arena := alUpd s.arena e (.raw d) }
    match sortListsOp cmp fuel s1 with
    | none => .spin
    | some s2 => .ok none s2
  | none =>
    match insertRecordOp cmp fuel s key d .back none with
    | .crash => .crash
    | .spin => .spin
    | .ok _ (rec, s1) => .ok none { s1 with m := alSet s1.m key rec }

/-- `SetFirst` (src/omap.go 185-200): like `Set` but a new key is
inserted at the front of the default list. -/
def setFirstOp (cmp : Cmp K D) (fuel : Nat) (s : OmapS K D) (key : K)
    (d : D) : Out (OmapS K D) :=
  match alGet s.m key with
  | some none => .crash
  | some (some e) =>
    let s1 : OmapS K D := { s with arena := alUpd s.arena e (.raw d) }
    match sortListsOp cmp fuel s1 with
    | none => .spin
    | some s2 => .ok none s2
  | none =>
    match insertRecordOp cmp fuel s key d .front none with
    | .crash => .crash
    | .spin => .spin
    | .ok _ (rec, s1) => .ok none { s1 with m := alSet s1.m key rec }

/-- `Get` (src/omap.go 137-152): look the record up; extract the data via
the `recordValue` type assertion, which yields the zero value when the
element's `Value` is not a `recordValue`.  `none` models `ok = false`. -/
def getOp (s : OmapS K D) (key : K) : Res (Option D) :=
  match alGet s.m key with
  | none => .ok none
  | some none => .crash
  | some (some e) => .ok (some (valData (arenaVal s e)))

/-- `Exists` — not present in src/omap.go; modelled from
src/unnamed/part_003 lines 171-181 (`_, exists = m.m[key]`). -/
def existsOp (s : OmapS K D) (key : K) : Bool :=
  (alGet s.m key).isSome

/-- `Del` (src/omap.go 204-224): read the record, call `Remove` of the
record's (default-list) element on every index list — a no-op on the
lists that do not own it — and delete the key from the table. -/
def delOp (s : OmapS K D) (key : K) : Res (Option D × OmapS K D) :=
  match alGet s.m key with
  | none => .ok (none, s)
  | some none => .crash
  | some (some e) =>
    let d := valData (arenaVal s e)
    let lm' := s.lm.map fun p => (p.1, goRemove p.2 e)
    .ok (some d, { s with m := alDel s.m key, lm := lm' })

/-- `getList` (src/omap.go 612-624): the first index key if given,
otherwise the default key `0`. -/
def getListS (s : OmapS K D) (ks : List Nat) : Option (List Nat) :=
  alGet s.lm (ks.headD 0)

/-- `First` (src/omap.go 292-303): nil for an unknown index key or an
empty list. -/
def firstOp (s : OmapS K D) (ks : List Nat) : Res (Option Nat) :=
  match getListS s ks with
  | none => .ok none
  | some l => .ok l.head?

/-- `Last` (src/omap.go 328-339): nil for an unknown index key or an
empty list. -/
def lastOp (s : OmapS K D) (ks : List Nat) : Res (Option Nat) :=
  match getListS s ks with
  | none => .ok none
  | some l => .ok l.getLast?

/-- The list that owns element `e`, if any (`e.list`; `none` models
`e.list == nil`, e.g. after removal). -/
def ownerList (s : OmapS K D) (e : Nat) : Option (List Nat) :=
  (s.lm.map Prod.snd).find? (fun l => l.contains e)

/-- `Element.Next()` through the owning list. -/
def elemNext (s : OmapS K D) (e : Nat) : Option Nat :=
  match ownerList s e with
  | none => none
  | some l => succIn e l

/-- `Element.Prev()` through the owning list. -/
def elemPrev (s : OmapS K D) (e : Nat) : Option Nat :=
  match ownerList s e with
  | none => none
  | some l => succIn e l.reverse

/-- `Next` (src/omap.go 307-317): nil for a nil input record, else the
element's successor. -/
def nextOp (s : OmapS K D) (r : Option Nat) : Res (Option Nat) :=
  match r with
  | none => .ok none
  | some e => .ok (elemNext s e)

/-- `Prev` (src/omap.go 320-325): no nil check — a nil input record makes
`rec.element().Prev()` dereference nil and panic. -/
def prevOp (s : OmapS K D) (r : Option Nat) : Res (Option Nat) :=
  match r with
  | none => .crash
  | some e => .ok (elemPrev s e)

/-- `InsertBefore` (src/omap.go 343-359): `ErrKeyAllreadySet` when the
key is present (before any mutation), else `insertRecord` with direction
`before` and `o.m[key] = rec`. -/
def insertBeforeOp (cmp : Cmp K D) (fuel : Nat) (s : OmapS K D) (key : K)
    (d : D) (mark : Option Nat) : Out (OmapS K D) :=
  if (alGet s.m key).isSome then .ok (some .keyAllreadySet) s
  else
    match insertRecordOp cmp fuel s key d .bef mark with
    | .crash => .crash
    | .spin => .spin
    | .ok _ (rec, s1) => .ok none { s1 with m := alSet s1.m key rec }

/-- `InsertAfter` (src/omap.go 363-379): `ErrKeyAllreadySet` when the
key is present (before any mutation), else `insertRecord` with direction
`after` and `o.m[key] = rec`. -/
def insertAfterOp (cmp : Cmp K D) (fuel : Nat) (s : OmapS K D) (key : K)
    (d : D) (mark : Option Nat) : Out (OmapS K D) :=
  if (alGet s.m key).isSome then .ok (some .keyAllreadySet) s
  else
    match insertRecordOp cmp fuel s key d .aft mark with
    | .crash => .crash
    | .spin => .spin
    | .ok _ (rec, s1) => .ok none { s1 with m := alSet s1.m key rec }

/-- The default list of the state (`o.lm[0]`). -/
def defList (s : OmapS K D) : List Nat :=
  (alGet s.lm 0).getD []

/-- `MoveToFront` (src/omap.go 401-414): `ErrRecordNotFound` for a nil
record; otherwise `o.lm[0].MoveToFront(rec.element())`. -/
def moveToFrontOp (s : OmapS K D) (r : Option Nat) :
    Option GErr × OmapS K D :=
  match r with
  | none => (some .recordNotFound, s)
  | some e => (none, { s with lm := alUpd s.lm 0 (goMoveToFront (defList s) e) })

/-- `MoveToBack` (src/omap.go 383-397): `ErrRecordNotFound` for a nil
record; otherwise `o.lm[0].MoveToBack(rec.element())`. -/
def moveToBackOp (s : OmapS K D) (r : Option Nat) :
    Option GErr × OmapS K D :=
  match r with
  | none => (some .recordNotFound, s)
  | some e => (none, { s with lm := alUpd s.lm 0 (goMoveToBack (defList s) e) })

/-- `MoveBefore` (src/omap.go 418-432): `ErrRecordNotFound` when either
record is nil; otherwise `o.lm[0].MoveBefore(rec.element(), mark.element())`. -/
def moveBeforeOp (s : OmapS K D) (r mk : Option Nat) :
    Option GErr × OmapS K D :=
  match r, mk with
  | none, _ => (some .recordNotFound, s)
  | _, none => (some .recordNotFound, s)
  | some e, some m =>
    (none, { s with lm := alUpd s.lm 0 (goMoveBefore (defList s) e m) })

/-- `MoveAfter` (src/omap.go 436-450): `ErrRecordNotFound` when either
record is nil; otherwise `o.lm[0].MoveAfter(rec.element(), mark.element())`. -/
def moveAfterOp (s : OmapS K D) (r mk : Option Nat) :
    Option GErr × OmapS K D :=
  match r, mk with
  | none, _ => (some .recordNotFound, s)
  | _, none => (some .recordNotFound, s)
  | some e, some m =>
    (none, { s with lm := alUpd s.lm 0 (goMoveAfter (defList s) e m) })

/-- Frame of a single-index sort pass: everything but the list of index
`k` is untouched. -/
def framesIdxOnly (k : Nat) (s s' : OmapS K D) : Prop :=
  s'.m = s.m ∧ s'.arena = s.arena ∧ s'.nextId = s.nextId ∧
  ∀ j, j ≠ k → alGet s'.lm j = alGet s.lm j

/-- Observational equality of two states: same table, arena, id counter
and per-index lists. -/
def sameState (s s' : OmapS K D) : Prop :=
  s'.m = s.m ∧ s'.arena = s.arena ∧ s'.nextId = s.nextId ∧
  ∀ j, alGet s'.lm j = alGet s.lm j

section AlLemmas

variable {κ β : Type} [DecidableEq κ]

theorem alGet_alUpd_ne (l : List (κ × β)) (k j : κ) (v : β) (h : j ≠ k) :
    alGet (alUpd l k v) j = alGet l j := by
  induction l with
  | nil => rfl
  | cons p t ih =>
    by_cases hp : p.1 = k
    · simp only [alUpd, List.map_cons, if_pos hp, alGet] at *
      rw [if_neg (by simpa using (Ne.symm h)), if_neg (by rw [hp]; exact Ne.symm h)]
      exact ih
    · simp only [alUpd, List.map_cons, if_neg hp, alGet] at *
      by_cases hj : p.1 = j
      · rw [if_pos hj, if_pos hj]
      · rw [if_neg hj, if_neg hj]; exact ih

theorem alGet_alUpd_eq (l : List (κ × β)) (k : κ) (v : β) :
    alGet (alUpd l k v) k = (alGet l k).map (fun _ => v) := by
  induction l with
  | nil => rfl
  | cons p t ih =>
    by_cases hp : p.1 = k
    · simp [alUpd, alGet, hp]
    · simp only [alUpd, List.map_cons, if_neg hp, alGet]
      exact ih

theorem alGet_alUpd_getD (l : List (κ × β)) (k : κ) (d : β) (j : κ) :
    alGet (alUpd l k ((alGet l k).getD d)) j = alGet l j := by
  by_cases hj : j = k
  · subst hj
    rw [alGet_alUpd_eq]
    cases h : alGet l j <;> simp [h]
  · exact alGet_alUpd_ne l k j _ hj

theorem alUpd_comm (l : List (κ × β)) (i j : κ) (a b : β) (h : i ≠ j) :
    alUpd (alUpd l i a) j b = alUpd (alUpd l j b) i a := by
  simp only [alUpd, List.map_map]
  apply List.map_congr_left
  intro p _
  by_cases hi : p.1 = i
  · simp [Function.comp, hi, h, Ne.symm h]
  · by_cases hj : p.1 = j
    · simp [Function.comp, hi, hj, h, Ne.symm h]
    · simp [Function.comp, hi, hj]

end AlLemmas

/-- The default index key is never among the secondary keys. -/
theorem zero_not_secKeys (s : OmapS K D) : 0 ∉ secKeys s := by
  intro h
  simp [secKeys, List.mem_filter] at h

/-- Comparator lifting only reads the arena. -/
theorem liftF_congr (cmp : Cmp K D) (k : Nat) (s s' : OmapS K D)
    (h : s'.arena = s.arena) : liftF cmp k s' = liftF cmp k s := by
  funext a b
  simp [liftF, arenaVal, h]

/-- Record-key lifting only reads the arena. -/
theorem liftKey_congr (s s' : OmapS K D) (h : s'.arena = s.arena) :
    liftKey s' = liftKey s := by
  funext a
  simp [liftKey, arenaVal, h]

/-- A completed single-index sort pass touches only that index's list. -/
theorem sortIdxOp_frame (cmp : Cmp K D) (fuel : Nat) (s s' : OmapS K D)
    (k : Nat) (h : sortIdxOp cmp fuel s k = some s') :
    framesIdxOnly k s s' := by
  unfold sortIdxOp at h
  split at h
  · cases h
    exact ⟨rfl, rfl, rfl, fun j _ => rfl⟩
  · split at h
    · cases h
    · cases h
      exact ⟨rfl, rfl, rfl, fun j hj => alGet_alUpd_ne _ _ _ _ hj⟩

/-- A completed sequential sort over keys `ks` touches only those lists. -/
theorem sortSeq_frame (cmp : Cmp K D) (fuel : Nat) (ks : List Nat)
    (s s' : OmapS K D) (h : sortSeq cmp fuel ks s = some s') :
    s'.m = s.m ∧ s'.arena = s.arena ∧ s'.nextId = s.nextId ∧
    ∀ j, j ∉ ks → alGet s'.lm j = alGet s.lm j := by
  induction ks generalizing s with
  | nil =>
    cases h
    exact ⟨rfl, rfl, rfl, fun j _ => rfl⟩
  | cons k t ih =>
    unfold sortSeq at h
    cases hk : sortIdxOp cmp fuel s k with
    | none => rw [hk] at h; cases h
    | some s1 =>
      rw [hk] at h
      obtain ⟨h1, h2, h3, h4⟩ := sortIdxOp_frame cmp fuel s s1 k hk
      obtain ⟨g1, g2, g3, g4⟩ := ih s1 h
      refine ⟨g1.trans h1, g2.trans h2, g3.trans h3, fun j hj => ?_⟩
      rw [g4 j (fun hm => hj (List.mem_cons_of_mem _ hm)),
        h4 j (fun he => hj (he ▸ List.mem_cons_self _ _))]

/-- A completed `sortLists` never changes the default list. -/
theorem sortListsOp_defList (cmp : Cmp K D) (fuel : Nat) (s s' : OmapS K D)
    (h : sortListsOp cmp fuel s = some s') :
    alGet s'.lm 0 = alGet s.lm 0 ∧ s'.m = s.m := by
  obtain ⟨h1, _, _, h4⟩ := sortSeq_frame cmp fuel (secKeys s) s s' h
  exact ⟨h4 0 (zero_not_secKeys s), h1⟩

/-- Key-ascending comparator over record values, `CompareByKey` composed
with `Record.Key()` as the test index of src/omap_test.go uses it. -/
def cmpByKeyI : Cmp Int Int :=
  fun _ a b => compareByKey (valKey a) (valKey b)

/-- A fresh map with one secondary index (key `1`). -/
def sC1a : OmapS Int Int := newOmap [1]

/-- The state after `Set(10, 20)` on `sC1a`. -/
def sC1b : OmapS Int Int :=
  match setOp cmpByKeyI 30 sC1a 10 20 with
  | .ok _ s => s
  | _ => sC1a

/-- The value/state pair `Del(10)` returns on `sC1b`. -/
def sC1c : Option Int × OmapS Int Int :=
  match delOp sC1b 10 with
  | .ok p => p
  | .crash => (none, sC1b)

/-- C1: refuted on the code.  With one secondary index, `Set(10, 20)`
followed by `Del(10)` returns the removed value and empties the key
table, but the secondary index's list still contains the deleted entry's
node: `Del` calls `Remove` of the default-list element on every list, a
silent no-op on the lists that do not own that element
(src/omap.go 216-218). -/
theorem C1_del_leaves_secondary :
    setOp cmpByKeyI 30 sC1a 10 20 = .ok none sC1b ∧
    delOp sC1b 10 = .ok (some 20, sC1c.2) ∧
    sC1c.1 = some 20 ∧
    sC1c.2.m = [] ∧
    alGet sC1c.2.lm 1 = some [1] ∧
    alGet sC1c.2.lm 1 ≠ some [] := by
  refine ⟨by decide, by decide, by decide, by decide, by decide, by decide⟩

/-- C2: refuted on the code.  The full resort pass `sortFunc`
(src/omap.go 452-476) run on the arrangement `[2, 3, 1]` (distinct record
keys, key-ascending comparator) terminates with `[1, 3, 2]`, which is not
sorted: the `checkPair` dedup cache suppresses a needed re-comparison
after a restart, so the pass does not establish sortedness regardless of
the starting arrangement. -/
theorem C2_resort_leaves_unsorted :
    sortFuncL (compareByKey : Nat → Nat → Int) id 30 [2, 3, 1] =
      some [1, 3, 2] ∧
    sortedAdj (compareByKey : Nat → Nat → Int) [1, 3, 2] = false ∧
    sortedAdj (compareByKey : Nat → Nat → Int) [2, 3, 1] = false := by
  refine ⟨by decide, by decide, by decide⟩

/-- A fresh map with no secondary index. -/
def sC3a : OmapS Int Int := newOmap []

/-- The state after `Set(1, 10)` on `sC3a`. -/
def sC3b : OmapS Int Int :=
  match setOp cmpByKeyI 30 sC3a 1 10 with
  | .ok _ s => s
  | _ => sC3a

/-- The state after the updating `Set(1, 20)` on `sC3b`. -/
def sC3c : OmapS Int Int :=
  match setOp cmpByKeyI 30 sC3b 1 20 with
  | .ok _ s => s
  | _ => sC3b

/-- The state after `Del(1)` on `sC3c`. -/
def sC3d : OmapS Int Int :=
  match delOp sC3c 1 with
  | .ok p => p.2
  | .crash => sC3c

/-- C3: refuted on the code.  `Set(1, 10)` then `Set(1, 20)` then
`Get(1)` returns the zero value `0`, not `20`: the update path assigns
the bare data to `el.Value` (src/omap.go 172), so `Get`'s `recordValue`
type assertion fails and yields the zero value.  The `Del` round-trip
half of the claim does hold. -/
theorem C3_update_get_returns_zero :
    setOp cmpByKeyI 30 sC3a 1 10 = .ok none sC3b ∧
    setOp cmpByKeyI 30 sC3b 1 20 = .ok none sC3c ∧
    getOp sC3c 1 = .ok (some 0) ∧
    getOp sC3c 1 ≠ .ok (some 20) ∧
    delOp sC3c 1 = .ok (some 0, sC3d) ∧
    getOp sC3d 1 = .ok none ∧
    existsOp sC3d 1 = false := by
  refine ⟨by decide, by decide, by decide, by decide, by decide, by decide,
    by decide⟩

/-- Walking past a trailing `e` not occurring earlier finds no successor. -/
theorem succsOf_append_self {α : Type} [DecidableEq α] (e : α) (t : List α)
    (h : e ∉ t) : succsOf e (t ++ [e]) = [] := by
  induction t with
  | nil => simp [succsOf]
  | cons x xs ih =>
    have hx : ¬x = e := fun hc => h (hc ▸ List.mem_cons_self x xs)
    simp only [List.cons_append, succsOf, if_neg hx]
    exact ih fun hm => h (List.mem_cons_of_mem _ hm)

/-- C5 counterexample: `Prev` on a nil input record panics (nil
dereference in `rec.element().Prev()`, src/omap.go 320-325) instead of
returning empty, so the four traversal operations do not all fail
silently on every input. -/
theorem C5_counterexample :
    prevOp (newOmap [] : OmapS Int Int) none = .crash := by decide

/-- C5 (amended): `First` and `Last` return empty for an unknown index id
or an empty list and never fail; `Next` returns empty for a nil input
record or a last record and never fails; `Prev` returns empty for a first
record and never fails on a non-nil record, but panics on a nil input
record. -/
theorem C5_traversal_totality :
    ∀ (s : OmapS K D) (ks : List Nat) (e : Nat) (t : List Nat),
    (getListS s ks = none → firstOp s ks = .ok none ∧ lastOp s ks = .ok none) ∧
    (getListS s ks = some [] →
      firstOp s ks = .ok none ∧ lastOp s ks = .ok none) ∧
    (∃ r, firstOp s ks = .ok r) ∧
    (∃ r, lastOp s ks = .ok r) ∧
    nextOp s none = .ok none ∧
    (∃ r, nextOp s (some e) = .ok r) ∧
    (ownerList s e = some (t ++ [e]) → e ∉ t → nextOp s (some e) = .ok none) ∧
    prevOp s none = .crash ∧
    (∃ r, prevOp s (some e) = .ok r) ∧
    (ownerList s e = some (e :: t) → e ∉ t → prevOp s (some e) = .ok none) := by
  intro s ks e t
  refine ⟨fun h => ?_, fun h => ?_, ?_, ?_, rfl, ⟨_, rfl⟩, fun ho hm => ?_,
    rfl, ⟨_, rfl⟩, fun ho hm => ?_⟩
  · exact ⟨by simp [firstOp, h], by simp [lastOp, h]⟩
  · exact ⟨by simp [firstOp, h], by simp [lastOp, h]⟩
  · unfold firstOp
    split
    · exact ⟨_, rfl⟩
    · exact ⟨_, rfl⟩
  · unfold lastOp
    split
    · exact ⟨_, rfl⟩
    · exact ⟨_, rfl⟩
  · simp [nextOp, elemNext, ho, succIn, succsOf_append_self e t hm]
  · have hrev : (e :: t).reverse = t.reverse ++ [e] := by simp
    have hmr : e ∉ t.reverse := by simpa using hm
    simp [prevOp, elemPrev, ho, succIn, hrev, succsOf_append_self e t.reverse hmr]

/-- C6: `Set` on an existing key updates the element's `Value` and then
runs `sortLists`, which skips the default list; the default-index
sequence (and the key table) are unchanged. -/
theorem C6_set_existing_preserves_default :
    ∀ (cmp : Cmp K D) (fuel : Nat) (s s' : OmapS K D) (k : K) (d : D),
    (alGet s.m k).isSome = true →
    setOp cmp fuel s k d = .ok none s' →
    alGet s'.lm 0 = alGet s.lm 0 ∧ s'.m = s.m := by
  intro cmp fuel s s' k d hk h
  unfold setOp at h
  split at h
  · cases h
  · dsimp only at h
    split at h
    · cases h
    · rename_i hsort
      cases h
      have h2 := sortListsOp_defList cmp fuel _ _ hsort
      exact h2
  · rename_i heq
    rw [heq] at hk
    simp at hk

/-- Witness for C5 at a concrete state: unknown index key `7`, and the
sole element `0` of the default list as both first and last record. -/
theorem C5_witness :
    (firstOp sC1b [7] = .ok none ∧ lastOp sC1b [7] = .ok none) ∧
    nextOp sC1b (some 0) = .ok none ∧ prevOp sC1b (some 0) = .ok none :=
  have h := C5_traversal_totality sC1b [7] 0 []
  ⟨h.1 (by decide),
   h.2.2.2.2.2.2.1 (by decide) (by decide),
   h.2.2.2.2.2.2.2.2.2 (by decide) (by decide)⟩

/-- The state after the updating `Set(10, 99)` on `sC1b`. -/
def sC6r : OmapS Int Int :=
  match setOp cmpByKeyI 30 sC1b 10 99 with
  | .ok _ s => s
  | _ => sC1b

/-- Witness for C6: updating key `10` in `sC1b` leaves the default list
and the table unchanged. -/
theorem C6_witness :
    alGet sC6r.lm 0 = alGet sC1b.lm 0 ∧ sC6r.m = sC1b.m :=
  C6_set_existing_preserves_default cmpByKeyI 30 sC1b sC6r 10 99
    (by decide) (by decide)

/-- C7: `InsertBefore`/`InsertAfter` return `ErrKeyAllreadySet` exactly
when the key is already present, and in that case the check precedes any
mutation, so the returned state is the input state. -/
theorem C7_insert_error_iff_key_exists :
    ∀ (cmp : Cmp K D) (fuel : Nat) (s : OmapS K D) (k : K) (d : D)
      (mark : Option Nat),
    ((alGet s.m k).isSome = true →
      insertBeforeOp cmp fuel s k d mark = .ok (some .keyAllreadySet) s ∧
      insertAfterOp cmp fuel s k d mark = .ok (some .keyAllreadySet) s) ∧
    (∀ s', insertBeforeOp cmp fuel s k d mark = .ok (some .keyAllreadySet) s' →
      s' = s ∧ (alGet s.m k).isSome = true) ∧
    (∀ s', insertAfterOp cmp fuel s k d mark = .ok (some .keyAllreadySet) s' →
      s' = s ∧ (alGet s.m k).isSome = true) := by
  intro cmp fuel s k d mark
  refine ⟨fun hk => ?_, fun s' h => ?_, fun s' h => ?_⟩
  · exact ⟨by rw [insertBeforeOp, if_pos hk], by rw [insertAfterOp, if_pos hk]⟩
  · by_cases hk : (alGet s.m k).isSome = true
    · rw [insertBeforeOp, if_pos hk] at h
      cases h
      exact ⟨rfl, hk⟩
    · rw [insertBeforeOp, if_neg hk] at h
      split at h
      · cases h
      · cases h
      · cases h
  · by_cases hk : (alGet s.m k).isSome = true
    · rw [insertAfterOp, if_pos hk] at h
      cases h
      exact ⟨rfl, hk⟩
    · rw [insertAfterOp, if_neg hk] at h
      split at h
      · cases h
      · cases h
      · cases h

/-- Witness for C7 at a concrete state with key `10` present. -/
theorem C7_witness :
    insertBeforeOp cmpByKeyI 30 sC1b 10 5 none =
      .ok (some .keyAllreadySet) sC1b ∧
    insertAfterOp cmpByKeyI 30 sC1b 10 5 none =
      .ok (some .keyAllreadySet) sC1b :=
  (C7_insert_error_iff_key_exists cmpByKeyI 30 sC1b 10 5 none).1 (by decide)

/-- C8: the four move operations return `ErrRecordNotFound` exactly when
a referenced record is nil (leaving the state unchanged in that case),
and otherwise touch only the default index's list. -/
theorem C8_moves_error_iff_nil_default_only :
    ∀ (s : OmapS K D) (r mk : Option Nat),
    ((moveToFrontOp s r).1 = some .recordNotFound ↔ r = none) ∧
    ((moveToBackOp s r).1 = some .recordNotFound ↔ r = none) ∧
    ((moveBeforeOp s r mk).1 = some .recordNotFound ↔ (r = none ∨ mk = none)) ∧
    ((moveAfterOp s r mk).1 = some .recordNotFound ↔ (r = none ∨ mk = none)) ∧
    (r = none → moveToFrontOp s r = (some .recordNotFound, s) ∧
      moveToBackOp s r = (some .recordNotFound, s)) ∧
    (r = none ∨ mk = none →
      moveBeforeOp s r mk = (some .recordNotFound, s) ∧
      moveAfterOp s r mk = (some .recordNotFound, s)) ∧
    framesIdxOnly 0 s (moveToFrontOp s r).2 ∧
    framesIdxOnly 0 s (moveToBackOp s r).2 ∧
    framesIdxOnly 0 s (moveBeforeOp s r mk).2 ∧
    framesIdxOnly 0 s (moveAfterOp s r mk).2 := by
  intro s r mk
  have hframe : ∀ L, framesIdxOnly 0 s { s with lm := alUpd s.lm 0 L } :=
    fun L => ⟨rfl, rfl, rfl, fun j hj => alGet_alUpd_ne _ _ _ _ hj⟩
  have hself : framesIdxOnly 0 s s := ⟨rfl, rfl, rfl, fun _ _ => rfl⟩
  cases r with
  | none =>
    cases mk with
    | none =>
      exact ⟨by simp [moveToFrontOp], by simp [moveToBackOp],
        by simp [moveBeforeOp], by simp [moveAfterOp],
        fun _ => ⟨rfl, rfl⟩, fun _ => ⟨rfl, rfl⟩,
        hself, hself, hself, hself⟩
    | some m =>
      exact ⟨by simp [moveToFrontOp], by simp [moveToBackOp],
        by simp [moveBeforeOp], by simp [moveAfterOp],
        fun _ => ⟨rfl, rfl⟩, fun h => ⟨rfl, rfl⟩,
        hself, hself, hself, hself⟩
  | some e =>
    cases mk with
    | none =>
      refine ⟨by simp [moveToFrontOp], by simp [moveToBackOp],
        by simp [moveBeforeOp], by simp [moveAfterOp],
        ?_, ?_, ?_, ?_, ?_, ?_⟩
      · intro h
        cases h
      · intro _
        exact ⟨rfl, rfl⟩
      · exact hframe _
      · exact hframe _
      · exact hself
      · exact hself
    | some m =>
      refine ⟨by simp [moveToFrontOp], by simp [moveToBackOp],
        by simp [moveBeforeOp], by simp [moveAfterOp],
        ?_, ?_, ?_, ?_, ?_, ?_⟩
      · intro h
        cases h
      · intro h
        rcases h with h | h <;> cases h
      · exact hframe _
      · exact hframe _
      · exact hframe _
      · exact hframe _

/-- Witness for C8 at a concrete state: nil record errs with the state
unchanged, and a non-nil record does not err and leaves the secondary
list untouched. -/
theorem C8_witness :
    moveToFrontOp sC1b none = (some .recordNotFound, sC1b) ∧
    (moveToFrontOp sC1b (some 0)).1 ≠ some .recordNotFound ∧
    alGet (moveToFrontOp sC1b (some 0)).2.lm 1 = alGet sC1b.lm 1 :=
  have h0 := C8_moves_error_iff_nil_default_only sC1b none none
  have h := C8_moves_error_iff_nil_default_only sC1b (some 0) none
  ⟨(h0.2.2.2.2.1 rfl).1,
   ⟨fun hc => absurd (h.1.mp hc) (by decide),
    h.2.2.2.2.2.2.1.2.2.2 1 (by decide)⟩⟩

/-- C10: a move called with a non-nil record whose element belongs to a
secondary index's list (so the default list does not own it) returns a
nil error and leaves the whole state unchanged: the underlying
`container/list` move is a silent no-op. -/
theorem C10_move_foreign_record_noop :
    ∀ (s : OmapS K D) (e m k : Nat),
    k ≠ 0 → e ∈ (alGet s.lm k).getD [] → e ∉ defList s →
    (moveToFrontOp s (some e)).1 = none ∧
    sameState s (moveToFrontOp s (some e)).2 ∧
    (moveToBackOp s (some e)).1 = none ∧
    sameState s (moveToBackOp s (some e)).2 ∧
    (moveBeforeOp s (some e) (some m)).1 = none ∧
    sameState s (moveBeforeOp s (some e) (some m)).2 ∧
    (moveAfterOp s (some e) (some m)).1 = none ∧
    sameState s (moveAfterOp s (some e) (some m)).2 := by
  intro s e m k hk he hd
  have hfront : goMoveToFront (defList s) e = defList s := by
    rw [goMoveToFront, if_neg hd]
  have hback : goMoveToBack (defList s) e = defList s := by
    rw [goMoveToBack, if_neg hd]
  have hbef : goMoveBefore (defList s) e m = defList s := by
    by_cases hem : e = m
    · rw [goMoveBefore, if_pos hem]
    · rw [goMoveBefore, if_neg hem, if_neg (fun hc => hd hc.1)]
  have haft : goMoveAfter (defList s) e m = defList s := by
    by_cases hem : e = m
    · rw [goMoveAfter, if_pos hem]
    · rw [goMoveAfter, if_neg hem, if_neg (fun hc => hd hc.1)]
  have hsame : ∀ L, L = defList s →
      sameState s { s with lm := alUpd s.lm 0 L } := by
    intro L hL
    subst hL
    exact ⟨rfl, rfl, rfl, fun j => alGet_alUpd_getD s.lm 0 [] j⟩
  exact ⟨rfl, by rw [moveToFrontOp]; exact hsame _ hfront,
    rfl, by rw [moveToBackOp]; exact hsame _ hback,
    rfl, by rw [moveBeforeOp]; exact hsame _ hbef,
    rfl, by rw [moveAfterOp]; exact hsame _ haft⟩

/-- Witness for C10 at a concrete state: element `1` lives in secondary
index `1`'s list of `sC1b` and not in the default list. -/
theorem C10_witness :
    (moveToFrontOp sC1b (some 1)).1 = none ∧
    sameState sC1b (moveToFrontOp sC1b (some 1)).2 :=
  have h := C10_move_foreign_record_noop sC1b 1 0 1 (by decide) (by decide)
    (by decide)
  ⟨h.1, h.2.1⟩

/-- A sort pass over an unknown index key is a silent no-op. -/
theorem sortIdxOp_lookup_none (cmp : Cmp K D) (fuel : Nat) (s : OmapS K D)
    (k : Nat) (h : alGet s.lm k = none) : sortIdxOp cmp fuel s k = some s := by
  unfold sortIdxOp
  rw [h]

/-- A sort pass whose inner loop exhausts its fuel. -/
theorem sortIdxOp_lookup_some_none (cmp : Cmp K D) (fuel : Nat)
    (s : OmapS K D) (k : Nat) (l : List Nat) (hl : alGet s.lm k = some l)
    (hs : sortFuncL (liftF cmp k s) (liftKey s) fuel l = none) :
    sortIdxOp cmp fuel s k = none := by
  simp only [sortIdxOp, hl, hs]

/-- A completed sort pass stores the sorted list back under its key. -/
theorem sortIdxOp_lookup_some_some (cmp : Cmp K D) (fuel : Nat)
    (s : OmapS K D) (k : Nat) (l l' : List Nat) (hl : alGet s.lm k = some l)
    (hs : sortFuncL (liftF cmp k s) (liftKey s) fuel l = some l') :
    sortIdxOp cmp fuel s k = some { s with lm := alUpd s.lm k l' } := by
  simp only [sortIdxOp, hl, hs]

/-- C9: the per-index sort passes are mutually independent — a pass over
index `i` reads and writes only index `i`'s list (and reads the shared,
unmodified arena), so two passes over distinct indexes commute and any
sequential order gives the same state as the fan-out/fan-in; the default
index is excluded from `sortLists`. -/
theorem C9_sort_passes_independent :
    ∀ (cmp : Cmp K D) (fuel : Nat) (s : OmapS K D) (i j : Nat),
    i ≠ j →
    ((sortIdxOp cmp fuel s i).bind (fun t => sortIdxOp cmp fuel t j) =
      (sortIdxOp cmp fuel s j).bind (fun t => sortIdxOp cmp fuel t i)) ∧
    (∀ s', sortIdxOp cmp fuel s i = some s' → framesIdxOnly i s s') ∧
    (sortListsOp cmp fuel s = sortSeq cmp fuel (secKeys s) s ∧
      0 ∉ secKeys s) ∧
    (∀ s', sortListsOp cmp fuel s = some s' →
      alGet s'.lm 0 = alGet s.lm 0 ∧ s'.m = s.m ∧ s'.arena = s.arena) := by
  intro cmp fuel s i j hij
  have hji : j ≠ i := Ne.symm hij
  refine ⟨?_, fun s' h => sortIdxOp_frame cmp fuel s s' i h,
    ⟨rfl, zero_not_secKeys s⟩, fun s' h => ?_⟩
  · cases hi : alGet s.lm i with
    | none =>
      rw [sortIdxOp_lookup_none cmp fuel s i hi, Option.some_bind]
      cases hj : alGet s.lm j with
      | none =>
        rw [sortIdxOp_lookup_none cmp fuel s j hj, Option.some_bind,
          sortIdxOp_lookup_none cmp fuel s i hi]
      | some lj =>
        cases hsj : sortFuncL (liftF cmp j s) (liftKey s) fuel lj with
        | none =>
          rw [sortIdxOp_lookup_some_none cmp fuel s j lj hj hsj,
            Option.none_bind]
        | some lj' =>
          rw [sortIdxOp_lookup_some_some cmp fuel s j lj lj' hj hsj,
            Option.some_bind]
          refine (sortIdxOp_lookup_none cmp fuel
            { s with lm := alUpd s.lm j lj' } i ?_).symm
          show alGet (alUpd s.lm j lj') i = none
          rw [alGet_alUpd_ne s.lm j i lj' hij]
          exact hi
    | some li =>
      cases hsi : sortFuncL (liftF cmp i s) (liftKey s) fuel li with
      | none =>
        rw [sortIdxOp_lookup_some_none cmp fuel s i li hi hsi,
          Option.none_bind]
        cases hj : alGet s.lm j with
        | none =>
          rw [sortIdxOp_lookup_none cmp fuel s j hj, Option.some_bind,
            sortIdxOp_lookup_some_none cmp fuel s i li hi hsi]
        | some lj =>
          cases hsj : sortFuncL (liftF cmp j s) (liftKey s) fuel lj with
          | none =>
            rw [sortIdxOp_lookup_some_none cmp fuel s j lj hj hsj,
              Option.none_bind]
          | some lj' =>
            rw [sortIdxOp_lookup_some_some cmp fuel s j lj lj' hj hsj,
              Option.some_bind]
            refine (sortIdxOp_lookup_some_none cmp fuel
              { s with lm := alUpd s.lm j lj' } i li ?_ ?_).symm
            · show alGet (alUpd s.lm j lj') i = some li
              rw [alGet_alUpd_ne s.lm j i lj' hij]
              exact hi
            · exact hsi
      | some li' =>
        have hupj : alGet (alUpd s.lm i li') j = alGet s.lm j :=
          alGet_alUpd_ne s.lm i j li' hji
        rw [sortIdxOp_lookup_some_some cmp fuel s i li li' hi hsi,
          Option.some_bind]
        cases hj : alGet s.lm j with
        | none =>
          rw [sortIdxOp_lookup_none cmp fuel s j hj, Option.some_bind,
            sortIdxOp_lookup_none cmp fuel { s with lm := alUpd s.lm i li' } j
              (hupj.trans hj),
            sortIdxOp_lookup_some_some cmp fuel s i li li' hi hsi]
        | some lj =>
          cases hsj : sortFuncL (liftF cmp j s) (liftKey s) fuel lj with
          | none =>
            rw [sortIdxOp_lookup_some_none cmp fuel s j lj hj hsj,
              Option.none_bind]
            refine sortIdxOp_lookup_some_none cmp fuel
              { s with lm := alUpd s.lm i li' } j lj (hupj.trans hj) ?_
            exact hsj
          | some lj' =>
            have hupi : alGet (alUpd s.lm j lj') i = alGet s.lm i :=
              alGet_alUpd_ne s.lm j i lj' hij
            rw [sortIdxOp_lookup_some_some cmp fuel s j lj lj' hj hsj,
              Option.some_bind]
            rw [sortIdxOp_lookup_some_some cmp fuel
                { s with lm := alUpd s.lm i li' } j lj lj' (hupj.trans hj)
                hsj,
              sortIdxOp_lookup_some_some cmp fuel
                { s with lm := alUpd s.lm j lj' } i li li' (hupi.trans hi)
                hsi]
            simp only [alUpd_comm s.lm i j li' lj' hij]
  · obtain ⟨h1, h2, h3, h4⟩ := sortSeq_frame cmp fuel (secKeys s) s s' h
    exact ⟨h4 0 (zero_not_secKeys s), h1, h2⟩

/-- A fresh map with two secondary indexes (keys `1` and `2`). -/
def sC9a : OmapS Int Int := newOmap [1, 2]

/-- `sC9a` after `Set(3, 30)`. -/
def sC9b : OmapS Int Int :=
  match setOp cmpByKeyI 20 sC9a 3 30 with
  | .ok _ s => s
  | _ => sC9a

/-- `sC9b` after `Set(1, 10)`: two entries, both secondary lists
populated. -/
def sC9w : OmapS Int Int :=
  match setOp cmpByKeyI 20 sC9b 1 10 with
  | .ok _ s => s
  | _ => sC9b

/-- Witness for C9: two secondary indexes on a concrete two-entry state
commute. -/
theorem C9_witness :
    (sortIdxOp cmpByKeyI 20 sC9w 1).bind
        (fun t => sortIdxOp cmpByKeyI 20 t 2) =
      (sortIdxOp cmpByKeyI 20 sC9w 2).bind
        (fun t => sortIdxOp cmpByKeyI 20 t 1) :=
  (C9_sort_passes_independent cmpByKeyI 20 sC9w 1 2 (by decide)).1

section FixupLemmas

variable {α κ : Type} [DecidableEq α] [DecidableEq κ]

theorem delFirst_cons_self (e : α) (xs : List α) :
    delFirst e (e :: xs) = xs := by
  simp [delFirst]

theorem insBef_append_not_mem (s x : α) (A B : List α) (hA : s ∉ A) :
    insBef s x (A ++ s :: B) = A ++ x :: s :: B := by
  induction A with
  | nil => simp [insBef]
  | cons a A ih =>
    have ha : ¬a = s := fun hc => hA (hc ▸ List.mem_cons_self a A)
    simp only [List.cons_append, insBef, if_neg ha]
    exact congrArg _ (ih fun hm => hA (List.mem_cons_of_mem _ hm))

theorem applyAct_before_eq (el s : α) (A B : List α) (hA : s ∉ A)
    (hne : el ≠ s) : applyAct (el :: (A ++ s :: B)) el (.before s) =
      A ++ el :: s :: B := by
  have hsl : s ∈ el :: (A ++ s :: B) := by simp
  have hel : el ∈ el :: (A ++ s :: B) := List.mem_cons_self _ _
  simp only [applyAct, goMoveBefore, if_neg hne, if_pos (And.intro hel hsl),
    delFirst_cons_self]
  exact insBef_append_not_mem s el A B hA

theorem applyAct_toBack_eq (el : α) (ss : List α) :
    applyAct (el :: ss) el .toBack = ss ++ [el] := by
  have hel : el ∈ el :: ss := List.mem_cons_self _ _
  simp only [applyAct, goMoveToBack, if_pos hel, delFirst_cons_self]

theorem pairMem_eq_false_iff (c : List (κ × κ)) (k1 k2 : κ) :
    pairMem c k1 k2 = false ↔ ((k1, k2) ∉ c ∧ (k2, k1) ∉ c) := by
  simp [pairMem]

/-- The omap.go walk with `move` already set, all remaining comparisons
positive and no cached pair involving the walked keys: relocate to the
back. -/
theorem sortRecOmap_pos_toBack (f : α → α → Int) (key : α → κ) (el : α) :
    ∀ (ss : List α) (c : List (κ × κ)),
    (∀ x ∈ ss, (key el, key x) ∉ c ∧ (key x, key el) ∉ c) →
    (ss.map key).Nodup →
    (∀ x ∈ ss, key x ≠ key el) →
    (∀ x ∈ ss, 0 < f el x) →
    (sortRecOmap f key el ss c true).1 = .toBack := by
  intro ss
  induction ss with
  | nil => intro c _ _ _ _; rfl
  | cons s rest ih =>
    intro c hfr hnd hne hpos
    have hm : pairMem c (key el) (key s) = false :=
      (pairMem_eq_false_iff c _ _).mpr (hfr s (List.mem_cons_self _ _))
    have hm' : ¬pairMem c (key el) (key s) = true := by simp [hm]
    simp only [sortRecOmap, if_neg hm',
      if_pos (hpos s (List.mem_cons_self _ _))]
    have hsk : key s ∉ rest.map key := (List.nodup_cons.mp hnd).1
    apply ih
    · intro x hx
      have hx1 : key x ≠ key s :=
        fun hc => hsk (hc ▸ List.mem_map_of_mem key hx)
      have hx2 : key x ≠ key el := hne x (List.mem_cons_of_mem _ hx)
      obtain ⟨ho1, ho2⟩ := hfr x (List.mem_cons_of_mem _ hx)
      constructor
      · intro hmem
        rcases List.mem_cons.mp hmem with hc | hc
        · exact hx1 (congrArg Prod.snd hc)
        · exact ho1 hc
      · intro hmem
        rcases List.mem_cons.mp hmem with hc | hc
        · exact hx2 (congrArg Prod.fst hc)
        · exact ho2 hc
    · exact (List.nodup_cons.mp hnd).2
    · exact fun x hx => hne x (List.mem_cons_of_mem _ hx)
    · exact fun x hx => hpos x (List.mem_cons_of_mem _ hx)

/-- The omap.go walk with `move` already set, positive comparisons up to
the first non-positive successor `s`: relocate before `s`. -/
theorem sortRecOmap_pos_before (f : α → α → Int) (key : α → κ) (el : α)
    (s : α) (rest : List α) (hs : f el s ≤ 0) :
    ∀ (mid : List α) (c : List (κ × κ)),
    (∀ x ∈ mid ++ [s], (key el, key x) ∉ c ∧ (key x, key el) ∉ c) →
    ((mid ++ [s]).map key).Nodup →
    (∀ x ∈ mid ++ [s], key x ≠ key el) →
    (∀ x ∈ mid, 0 < f el x) →
    (sortRecOmap f key el (mid ++ s :: rest) c true).1 = .before s := by
  intro mid
  induction mid with
  | nil =>
    intro c hfr _ _ _
    have hm : pairMem c (key el) (key s) = false :=
      (pairMem_eq_false_iff c _ _).mpr (hfr s (List.mem_cons_self _ _))
    have hm' : ¬pairMem c (key el) (key s) = true := by simp [hm]
    have hnp : ¬0 < f el s := by omega
    simp only [List.nil_append, sortRecOmap, if_neg hm', if_neg hnp]
    simp
  | cons m mid ih =>
    intro c hfr hnd hne hpos
    have hm : pairMem c (key el) (key m) = false :=
      (pairMem_eq_false_iff c _ _).mpr (hfr m (List.mem_cons_self _ _))
    have hm' : ¬pairMem c (key el) (key m) = true := by simp [hm]
    simp only [List.cons_append, sortRecOmap, if_neg hm',
      if_pos (hpos m (List.mem_cons_self _ _))]
    have hmk : key m ∉ (mid ++ [s]).map key := by
      have := hnd
      simp only [List.cons_append, List.map_cons, List.nodup_cons] at this
      exact this.1
    apply ih
    · intro x hx
      have hx1 : key x ≠ key m :=
        fun hc => hmk (hc ▸ List.mem_map_of_mem key hx)
      have hx2 : key x ≠ key el := hne x (List.mem_cons_of_mem _ hx)
      obtain ⟨ho1, ho2⟩ := hfr x (List.mem_cons_of_mem _ hx)
      constructor
      · intro hmem
        rcases List.mem_cons.mp hmem with hc | hc
        · exact hx1 (congrArg Prod.snd hc)
        · exact ho1 hc
      · intro hmem
        rcases List.mem_cons.mp hmem with hc | hc
        · exact hx2 (congrArg Prod.fst hc)
        · exact ho2 hc
    · have := hnd
      simp only [List.cons_append, List.map_cons, List.nodup_cons] at this
      exact this.2
    · exact fun x hx => hne x (List.mem_cons_of_mem _ hx)
    · exact fun x hx => hpos x (List.mem_cons_of_mem _ hx)

/-- The omap_indexes.go walk with `move` set: it relocates before the
first non-positive successor. -/
theorem sortRecIdx_pos_before (f : α → α → Int) (el : α) (s : α)
    (rest : List α) (hs : f el s ≤ 0) :
    ∀ mid : List α, (∀ x ∈ mid, 0 < f el x) →
    sortRecIdx f el (mid ++ s :: rest) true = .before s := by
  intro mid
  induction mid with
  | nil =>
    intro _
    have hnp : ¬0 < f el s := by omega
    simp [sortRecIdx, hnp]
  | cons m mid ih =>
    intro hpos
    simp only [List.cons_append, sortRecIdx,
      if_pos (hpos m (List.mem_cons_self _ _))]
    exact ih fun x hx => hpos x (List.mem_cons_of_mem _ hx)

/-- The omap_indexes.go walk with `move` set and only positive
comparisons left: relocate to the back. -/
theorem sortRecIdx_pos_toBack (f : α → α → Int) (el : α) :
    ∀ mid : List α, (∀ x ∈ mid, 0 < f el x) →
    sortRecIdx f el mid true = .toBack := by
  intro mid
  induction mid with
  | nil => intro _; rfl
  | cons m mid ih =>
    intro hpos
    simp only [sortRecIdx, if_pos (hpos m (List.mem_cons_self _ _))]
    exact ih fun x hx => hpos x (List.mem_cons_of_mem _ hx)

/-- The omap_indexes.go walk without `move` set skips over non-positive
successors instead of stopping. -/
theorem sortRecIdx_skip_nonpos (f : α → α → Int) (el : α) :
    ∀ (pre : List α) (tail : List α), (∀ x ∈ pre, f el x ≤ 0) →
    sortRecIdx f el (pre ++ tail) false = sortRecIdx f el tail false := by
  intro pre
  induction pre with
  | nil => intro tail _; rfl
  | cons p pre ih =>
    intro tail hpre
    have hnp : ¬0 < f el p := by
      have := hpre p (List.mem_cons_self _ _)
      omega
    simp only [List.cons_append, sortRecIdx, if_neg hnp]
    exact ih tail fun x hx => hpre x (List.mem_cons_of_mem _ hx)

/-- The omap_indexes.go walk without `move` set and only non-positive
comparisons: no relocation at all. -/
theorem sortRecIdx_all_nonpos (f : α → α → Int) (el : α) (ss : List α)
    (h : ∀ x ∈ ss, f el x ≤ 0) : sortRecIdx f el ss false = .stay := by
  have := sortRecIdx_skip_nonpos f el ss [] (by simpa using h)
  simpa using this

/-- One walk step of the omap.go `sortRecord` over a fresh positive
comparison sets `move` and records the pair. -/
theorem sortRecOmap_step_pos (f : α → α → Int) (key : α → κ) (el p : α)
    (rest' : List α) (c : List (κ × κ))
    (hm : pairMem c (key el) (key p) = false) (hp : f el p > 0) (b : Bool) :
    sortRecOmap f key el (p :: rest') c b =
      sortRecOmap f key el rest' ((key el, key p) :: c) true := by
  simp [sortRecOmap, hm, hp]

/-- Keys pairwise distinct along `el :: L` give distinctness facts for
the walk. -/
theorem nodup_key_facts (key : α → κ) (el : α) (L : List α)
    (h : ((el :: L).map key).Nodup) :
    (L.map key).Nodup ∧ (∀ x ∈ L, key x ≠ key el) := by
  simp only [List.map_cons, List.nodup_cons] at h
  refine ⟨h.2, fun x hx hc => h.1 ?_⟩
  rw [← hc]
  exact List.mem_map_of_mem key hx

/-- An element that occurs after the separator of an append with nodup
keys does not occur before it. -/
theorem not_mem_of_key_nodup (key : α → κ) (A : List α) (s : α)
    (B : List α) (h : ((A ++ s :: B).map key).Nodup) : s ∉ A := by
  intro hc
  rw [List.map_append] at h
  exact List.disjoint_of_nodup_append h (List.mem_map_of_mem key hc)
    (by simp)

/-- An element that occurs after the separator of a nodup append does not
occur before it. -/
theorem not_mem_of_nodup_append (A : List α) (s : α) (B : List α)
    (h : (A ++ s :: B).Nodup) : s ∉ A :=
  fun hc => List.disjoint_of_nodup_append h hc (by simp)

end FixupLemmas

/-- C4 (amended): the omap.go `sortRecord` (fresh pair cache, pairwise
distinct record keys) realises exactly the claimed walk — while the
comparison is positive keep walking, relocate immediately before the
first non-positive successor (no move at all when that successor is the
first one), relocate to the tail when every comparison is positive.  The
omap_indexes.go `sortRecord` deviates: a non-positive successor only
stops the walk when a positive comparison was already seen; before that
it keeps walking, so a node whose first successor compares non-positive
can still be relocated — immediately before the first non-positive
successor that follows some positive one, or to the tail when none
follows. -/
theorem C4_fixup_characterization {α κ : Type} [DecidableEq α]
    [DecidableEq κ] (f : α → α → Int) (key : α → κ) (el : α) :
    (∀ pre s rest, ((el :: (pre ++ s :: rest)).map key).Nodup →
      (∀ x ∈ pre, f el x > 0) → f el s ≤ 0 →
      sortRecOmapApp f key el (pre ++ s :: rest) = pre ++ el :: s :: rest) ∧
    (∀ ss, ((el :: ss).map key).Nodup → (∀ x ∈ ss, f el x > 0) →
      sortRecOmapApp f key el ss = ss ++ [el]) ∧
    (∀ ss, (∀ x ∈ ss, f el x ≤ 0) →
      sortRecIdxApp f el ss = el :: ss) ∧
    (∀ pre s0 mid s rest, (el :: (pre ++ s0 :: (mid ++ s :: rest))).Nodup →
      (∀ x ∈ pre, f el x ≤ 0) → f el s0 > 0 → (∀ x ∈ mid, f el x > 0) →
      f el s ≤ 0 →
      sortRecIdxApp f el (pre ++ s0 :: (mid ++ s :: rest)) =
        pre ++ s0 :: (mid ++ el :: s :: rest)) ∧
    (∀ pre s0 mid, (el :: (pre ++ s0 :: mid)).Nodup →
      (∀ x ∈ pre, f el x ≤ 0) → f el s0 > 0 → (∀ x ∈ mid, f el x > 0) →
      sortRecIdxApp f el (pre ++ s0 :: mid) = (pre ++ s0 :: mid) ++ [el]) := by
  refine ⟨?_, ?_, ?_, ?_, ?_⟩
  · intro pre s rest hnd hpos hs
    obtain ⟨hndL, hneL⟩ := nodup_key_facts key el (pre ++ s :: rest) hnd
    cases pre with
    | nil =>
      have hnp : ¬f el s > 0 := by omega
      simp [sortRecOmapApp, sortRecOmap, pairMem, hnp, applyAct]
    | cons p pre' =>
      have hm0 : pairMem ([] : List (κ × κ)) (key el) (key p) = false := by
        simp [pairMem]
      have hp : f el p > 0 := hpos p (List.mem_cons_self _ _)
      have hpk : key p ∉ (pre' ++ s :: rest).map key := by
        have h2 := hndL
        simp only [List.cons_append, List.map_cons, List.nodup_cons] at h2
        exact h2.1
      have hndT : ((pre' ++ s :: rest).map key).Nodup := by
        have h2 := hndL
        simp only [List.cons_append, List.map_cons, List.nodup_cons] at h2
        exact h2.2
      have hmemT : ∀ x ∈ pre' ++ [s], x ∈ pre' ++ s :: rest := by
        intro x hx
        rcases List.mem_append.mp hx with h1 | h1
        · exact List.mem_append_left _ h1
        · have : x = s := by simpa using h1
          subst this
          exact List.mem_append_right _ (List.mem_cons_self _ _)
      have hwalk :
          (sortRecOmap f key el ((p :: pre') ++ s :: rest) [] false).1 =
            .before s := by
        rw [List.cons_append, sortRecOmap_step_pos f key el p
          (pre' ++ s :: rest) [] hm0 hp false]
        apply sortRecOmap_pos_before f key el s rest hs pre'
        · intro x hx
          have hxp : key x ≠ key p := fun hc =>
            hpk (hc ▸ List.mem_map_of_mem key (hmemT x hx))
          have hxe : key x ≠ key el :=
            hneL x (List.mem_cons_of_mem p (hmemT x hx))
          constructor
          · intro hmem
            exact hxp (congrArg Prod.snd (List.mem_singleton.mp hmem))
          · intro hmem
            exact hxe (congrArg Prod.fst (List.mem_singleton.mp hmem))
        · have h1 : List.Sublist (pre' ++ [s]) (pre' ++ s :: rest) :=
            (List.append_sublist_append_left _).mpr
              (List.cons_sublist_cons.mpr (List.nil_sublist _))
          exact hndT.sublist (h1.map key)
        · intro x hx
          exact hneL x (List.mem_cons_of_mem p (hmemT x hx))
        · intro x hx
          exact hpos x (List.mem_cons_of_mem _ hx)
      have hsp : s ∉ p :: pre' :=
        not_mem_of_key_nodup key (p :: pre') s rest hndL
      have hes : el ≠ s := by
        intro hc
        exact hneL s (List.mem_append_right _ (List.mem_cons_self _ _))
          (congrArg key hc.symm)
      show applyAct (el :: ((p :: pre') ++ s :: rest)) el
        (sortRecOmap f key el ((p :: pre') ++ s :: rest) [] false).1 =
          (p :: pre') ++ el :: s :: rest
      rw [hwalk]
      exact applyAct_before_eq el s (p :: pre') rest hsp hes
  · intro ss hnd hpos
    obtain ⟨hndL, hneL⟩ := nodup_key_facts key el ss hnd
    cases ss with
    | nil => rfl
    | cons p pre' =>
      have hm0 : pairMem ([] : List (κ × κ)) (key el) (key p) = false := by
        simp [pairMem]
      have hp : f el p > 0 := hpos p (List.mem_cons_self _ _)
      have hpk : key p ∉ pre'.map key := by
        have h2 := hndL
        simp only [List.map_cons, List.nodup_cons] at h2
        exact h2.1
      have hwalk :
          (sortRecOmap f key el (p :: pre') [] false).1 = .toBack := by
        rw [sortRecOmap_step_pos f key el p pre' [] hm0 hp false]
        apply sortRecOmap_pos_toBack f key el pre'
        · intro x hx
          have hxp : key x ≠ key p := fun hc =>
            hpk (hc ▸ List.mem_map_of_mem key hx)
          have hxe : key x ≠ key el :=
            hneL x (List.mem_cons_of_mem p hx)
          constructor
          · intro hmem
            exact hxp (congrArg Prod.snd (List.mem_singleton.mp hmem))
          · intro hmem
            exact hxe (congrArg Prod.fst (List.mem_singleton.mp hmem))
        · have h2 := hndL
          simp only [List.map_cons, List.nodup_cons] at h2
          exact h2.2
        · intro x hx
          exact hneL x (List.mem_cons_of_mem p hx)
        · intro x hx
          exact hpos x (List.mem_cons_of_mem _ hx)
      show applyAct (el :: (p :: pre')) el
        (sortRecOmap f key el (p :: pre') [] false).1 = (p :: pre') ++ [el]
      rw [hwalk]
      exact applyAct_toBack_eq el (p :: pre')
  · intro ss hle
    show applyAct (el :: ss) el (sortRecIdx f el ss false) = el :: ss
    rw [sortRecIdx_all_nonpos f el ss hle]
    rfl
  · intro pre s0 mid s rest hnd hpre hs0 hmid hs
    have hwalk : sortRecIdx f el (pre ++ s0 :: (mid ++ s :: rest)) false =
        .before s := by
      rw [sortRecIdx_skip_nonpos f el pre (s0 :: (mid ++ s :: rest)) hpre]
      have hnp : f el s0 > 0 := hs0
      simp only [sortRecIdx, if_pos hnp]
      exact sortRecIdx_pos_before f el s rest hs mid hmid
    have hndE : (el :: (pre ++ s0 :: (mid ++ s :: rest))).Nodup := hnd
    have hA : (el :: ((pre ++ s0 :: mid) ++ s :: rest)).Nodup := by
      have : pre ++ s0 :: (mid ++ s :: rest) =
          (pre ++ s0 :: mid) ++ s :: rest := by simp
      rw [← this]
      exact hndE
    have hsp : s ∉ pre ++ s0 :: mid :=
      not_mem_of_nodup_append (pre ++ s0 :: mid) s rest
        (List.nodup_cons.mp hA).2
    have hes : el ≠ s := by
      intro hc
      subst hc
      exact (List.nodup_cons.mp hA).1
        (List.mem_append_right _ (List.mem_cons_self _ _))
    show applyAct (el :: (pre ++ s0 :: (mid ++ s :: rest))) el
      (sortRecIdx f el (pre ++ s0 :: (mid ++ s :: rest)) false) =
        pre ++ s0 :: (mid ++ el :: s :: rest)
    rw [hwalk]
    have heq1 : el :: (pre ++ s0 :: (mid ++ s :: rest)) =
        el :: ((pre ++ s0 :: mid) ++ s :: rest) := by simp
    rw [heq1, applyAct_before_eq el s (pre ++ s0 :: mid) rest hsp hes]
    simp
  · intro pre s0 mid hnd hpre hs0 hmid
    have hwalk : sortRecIdx f el (pre ++ s0 :: mid) false = .toBack := by
      rw [sortRecIdx_skip_nonpos f el pre (s0 :: mid) hpre]
      simp only [sortRecIdx, if_pos hs0]
      exact sortRecIdx_pos_toBack f el mid hmid
    show applyAct (el :: (pre ++ s0 :: mid)) el
      (sortRecIdx f el (pre ++ s0 :: mid) false) = (pre ++ s0 :: mid) ++ [el]
    rw [hwalk]
    exact applyAct_toBack_eq el (pre ++ s0 :: mid)

/-- Witness for C4 at concrete inputs: the omap.go walk places `5` from
the front of `[3, 4, 7, 9]` before `7`, and to the tail of `[3, 4]`; the
omap_indexes.go walk on `[9, 3, 4, 8, 2]` (first successor `9` compares
non-positive) still relocates `5` before `8`. -/
theorem C4_witness :
    sortRecOmapApp (compareByKey : Nat → Nat → Int) id 5 [3, 4, 7, 9] =
      [3, 4, 5, 7, 9] ∧
    sortRecOmapApp (compareByKey : Nat → Nat → Int) id 5 [3, 4] =
      [3, 4, 5] ∧
    sortRecIdxApp (compareByKey : Nat → Nat → Int) 5 [9, 3, 4, 8, 2] =
      [9, 3, 4, 5, 8, 2] ∧
    sortRecIdxApp (compareByKey : Nat → Nat → Int) 5 [7, 9] =
      5 :: [7, 9] :=
  have h := C4_fixup_characterization (compareByKey : Nat → Nat → Int) id 5
  ⟨h.1 [3, 4] 7 [9] (by decide) (by decide) (by decide),
   h.2.1 [3, 4] (by decide) (by decide),
   h.2.2.2.1 [9] 3 [4] 8 [2] (by decide) (by decide) (by decide) (by decide)
     (by decide),
   h.2.2.1 [7, 9] (by decide)⟩

/-- C4 counterexample: in the omap_indexes.go `sortRecord`, the node `2`
whose first successor `3` already compares `<= 0` is nevertheless moved
(to the back, past the later successor `1` that compares `> 0`): the
claimed walk would leave the list `[2, 3, 1]` unchanged. -/
theorem C4_counterexample :
    compareByKey (2 : Nat) 3 ≤ 0 ∧
    sortRecIdxApp (compareByKey : Nat → Nat → Int) 2 [3, 1] = [3, 1, 2] ∧
    sortRecIdxApp (compareByKey : Nat → Nat → Int) 2 [3, 1] ≠ 2 :: [3, 1] := by
  refine ⟨by decide, by decide, by decide⟩

end OmapModel
